import Mathlib

/-!
Verification development for the synthetic-evals repository.

The definitions below are shallow embeddings of the Python source:

* `SynthEvals.WorktreeManager` — `src/utils/codebase_utils.py`
  (`WorktreeManager.acquire` / `release` / `create` / `down`, and
  `generate_file_tree`).  Python dicts become association lists, the on-disk
  checkout directories become an association from path to directory info,
  the single `asyncio.Lock` becomes a `lockHeld` annotation on every atomic
  step, and the await/suspension structure of `acquire` becomes a two-phase
  step function (bookkeeping under the lock, checkout I/O outside of it).
* `SynthEvals.Pipeline` — the per-item pipeline coroutines
  (`run_question` of `async_claude_pipeline.py`, `worker` of
  `async_dataset_pipeline.py`), the resume/filter logic
  (`main_async`, `filter_and_clean_prs`) and the compaction passes
  (`filter_and_clean_prs`, `filter_and_clean_graded_rubrics` of
  `async_grader.py`).
* `SynthEvals.Sem` — the counting-semaphore gating of the concurrent task
  runner (`main_async` + `run_question`).

Fallible Python code is embedded with `Except`/`Option`; exception control
flow is made explicit through small outcome environments.
-/

set_option autoImplicit false

namespace SynthEvals

/-! ## Association lists (embedding of Python dicts) -/

/-- First-match lookup in an association list (Python `d[k]` / `d.get(k)`). -/
def alookup {α : Type} : List (String × α) → String → Option α
  | [], _ => none
  | (k, v) :: t, key => if k = key then some v else alookup t key

/-- Lookup with a default (Python `d.get(k, dflt)` and `defaultdict`). -/
def alookupD {α : Type} (l : List (String × α)) (key : String) (dflt : α) : α :=
  (alookup l key).getD dflt

/-- Assignment `d[k] = v`: overwrite the first binding or append. -/
def aset {α : Type} : List (String × α) → String → α → List (String × α)
  | [], key, v => [(key, v)]
  | (k, w) :: t, key, v => if k = key then (key, v) :: t else (k, w) :: aset t key v

/-- Removal `d.pop(k, None)` / `del d[k]`: drop every binding of the key. -/
def aerase {α : Type} : List (String × α) → String → List (String × α)
  | [], _ => []
  | (k, w) :: t, key => if k = key then aerase t key else (k, w) :: aerase t key

/-- Python `str.lower()`. -/
def strLower (s : String) : String := ⟨s.data.map Char.toLower⟩

/-- `startsList n h`: the character list `h` starts with `n`. -/
def startsList : List Char → List Char → Bool
  | [], _ => true
  | _ :: _, [] => false
  | a :: as, b :: bs => a = b && startsList as bs

/-- `hasSub n h`: `n` occurs as a contiguous sublist of `h`. -/
def hasSub (n : List Char) : List Char → Bool
  | [] => n.isEmpty
  | h :: t => startsList n (h :: t) || hasSub n t

/-- Python substring containment `needle in hay`. -/
def substrIn (needle hay : String) : Bool := hasSub needle.data hay.data

instance exceptDecEq {ε α : Type} [DecidableEq ε] [DecidableEq α] :
    DecidableEq (Except ε α)
  | Except.ok a, Except.ok b =>
      if h : a = b then isTrue (by rw [h])
      else isFalse (by intro hh; cases hh; exact h rfl)
  | Except.ok _, Except.error _ => isFalse (by intro h; cases h)
  | Except.error _, Except.ok _ => isFalse (by intro h; cases h)
  | Except.error a, Except.error b =>
      if h : a = b then isTrue (by rw [h])
      else isFalse (by intro hh; cases hh; exact h rfl)

end SynthEvals

namespace SynthEvals.WorktreeManager

open SynthEvals

/-! ## State of the worktree manager and of the disk

`MState` packages the manager's registry (`self.worktrees`,
`self.ref_counts`) together with the on-disk checkout directories.  A
directory on disk is described by `DirInfo`: whether opening it as a
repository succeeds (`Repo(path)` in the source can throw) and, if so, the
commit its `HEAD` points at (`wt_repo.head.commit.hexsha`, which git reports
in lower case). -/

structure DirInfo where
  isRepo : Bool
  head : String
  deriving DecidableEq, Repr

structure MState where
  worktrees : List (String × String)
  refCounts : List (String × Int)
  disk : List (String × DirInfo)
  deriving DecidableEq, Repr

/-- The target path computed by the source: `self.base / f"worktree_{commit}"`. -/
def wtPath (commit : String) : String := "worktree_" ++ commit

/-- Per-atomic-step annotations: whether the registry lock was held while the
step ran, and which directories the step created/deleted on disk. -/
structure StepInfo where
  lockHeld : Bool
  creates : List String
  deletes : List String
  deriving DecidableEq, Repr

/-- Outcome of one `git worktree add` invocation as seen by the caller. -/
inductive AddRes where
  | ok
  | err (msg : String)
  deriving DecidableEq, Repr

/-- Environment describing the git backend's responses during one checkout:
the outcome of the plain `worktree add --detach`, the outcome of the forced
`worktree add -f --detach`, whether the commit is already resolvable locally
(`rev-parse --verify`), and the outcome of `fetch origin commit`. -/
structure GitEnv where
  addFirst : AddRes
  addForce : AddRes
  commitLocal : Bool
  fetchRes : AddRes
  deriving DecidableEq, Repr

/-- A clean backend: commit resolvable, adds succeed. -/
def cleanEnv : GitEnv := ⟨AddRes.ok, AddRes.ok, true, AddRes.ok⟩

/-- Errors raised out of `acquire`/`create`: a propagated `GitCommandError`
or the wrapped `RuntimeError("Failed to create worktree ...")`. -/
inductive WtError where
  | gitError (msg : String)
  | runtimeError (msg : String)
  deriving DecidableEq, Repr

/-- The test `"already registered" in str(e) or "exists" in str(e)` from
`WorktreeManager.acquire` (codebase_utils.py line 162). -/
def acquireAddFallback (msg : String) : Bool :=
  substrIn "already registered" msg || substrIn "exists" msg

/-- The test `"already registered worktree" in msg or "exists" in msg` from
`WorktreeManager.create` (codebase_utils.py line 221). -/
def createAddFallback (msg : String) : Bool :=
  substrIn "already registered worktree" msg || substrIn "exists" msg

/-! ## `acquire`, phase 1: bookkeeping under the lock

Embeds codebase_utils.py lines 129–137 (the body of `async with self.lock`).
Returns the new state, `some path` if the call returned early with a cached
worktree (reference count incremented), or `none` if the call registered a
fresh entry (count set to 1) and must go on to the checkout phase. -/

def acquire_bookkeep (s : MState) (commit : String) :
    MState × Option String × StepInfo :=
  match alookup s.worktrees commit with
  | some p =>
    if (alookup s.disk p).isSome then
      ({ s with refCounts := aset s.refCounts commit (alookupD s.refCounts commit 0 + 1) },
       some p, ⟨true, [], []⟩)
    else
      ({ worktrees := aset s.worktrees commit (wtPath commit),
         refCounts := aset s.refCounts commit 1,
         disk := s.disk },
       none, ⟨true, [], []⟩)
  | none =>
      ({ worktrees := aset s.worktrees commit (wtPath commit),
         refCounts := aset s.refCounts commit 1,
         disk := s.disk },
       none, ⟨true, [], []⟩)

/-! ## `acquire`, phase 2: checkout I/O outside the lock

Embeds codebase_utils.py lines 138–167: prune, ensure the commit is present
(fetch on demand), validate/remove any directory already at the target path,
then `worktree add` with the force fallback.  The lock is not held
(`lockHeld := false` on every outcome). -/

/-- The `worktree add` step with the force fallback (lines 159–165). -/
def acquire_add (disk : List (String × DirInfo)) (env : GitEnv)
    (path commit : String) (rmActs : List String) :
    Except WtError (List (String × DirInfo)) × StepInfo :=
  match env.addFirst with
  | AddRes.ok =>
      (Except.ok (aset disk path ⟨true, strLower commit⟩),
       ⟨false, [path], rmActs⟩)
  | AddRes.err m =>
      if acquireAddFallback m then
        match env.addForce with
        | AddRes.ok =>
            (Except.ok (aset disk path ⟨true, strLower commit⟩),
             ⟨false, [path], rmActs⟩)
        | AddRes.err m2 => (Except.error (WtError.gitError m2), ⟨false, [], rmActs⟩)
      else
        (Except.error (WtError.runtimeError ("Failed to create worktree for " ++ commit ++ ": " ++ m)),
         ⟨false, [], rmActs⟩)

/-- Validation of an existing directory plus the add step (lines 149–167). -/
def acquire_checkout_tail (disk : List (String × DirInfo)) (env : GitEnv)
    (path commit : String) :
    Except WtError (String × List (String × DirInfo)) × StepInfo :=
  match alookup disk path with
  | some info =>
      if info.isRepo && (strLower info.head == strLower commit) then
        (Except.ok (path, disk), ⟨false, [], []⟩)
      else
        match acquire_add (aerase disk path) env path commit [path] with
        | (Except.ok disk', i) => (Except.ok (path, disk'), i)
        | (Except.error e, i) => (Except.error e, i)
  | none =>
      match acquire_add disk env path commit [] with
      | (Except.ok disk', i) => (Except.ok (path, disk'), i)
      | (Except.error e, i) => (Except.error e, i)

/-- Whole checkout phase of `acquire` (lines 138–167): prune is a metadata
no-op on our state; `rev-parse`/`fetch` may fail before the directory logic
runs (an uncaught fetch failure propagates as a `GitCommandError`). -/
def acquire_checkout (s : MState) (env : GitEnv) (commit : String) :
    Except WtError (MState × String) × StepInfo :=
  if env.commitLocal then
    match acquire_checkout_tail s.disk env (wtPath commit) commit with
    | (Except.ok (p, disk'), i) => (Except.ok ({ s with disk := disk' }, p), i)
    | (Except.error e, i) => (Except.error e, i)
  else
    match env.fetchRes with
    | AddRes.err m => (Except.error (WtError.gitError m), ⟨false, [], []⟩)
    | AddRes.ok =>
      match acquire_checkout_tail s.disk env (wtPath commit) commit with
      | (Except.ok (p, disk'), i) => (Except.ok ({ s with disk := disk' }, p), i)
      | (Except.error e, i) => (Except.error e, i)

/-! ## `release` (codebase_utils.py lines 169–180)

The whole body runs inside `async with self.lock`, including the
`shutil.rmtree` — hence `lockHeld := true` on every outcome, and any disk
deletion this step performs happens under the lock. -/

def release_step (s : MState) (commit : String) : MState × StepInfo :=
  match alookup s.refCounts commit with
  | none => (s, ⟨true, [], []⟩)
  | some r =>
    let r' := r - 1
    if r' ≤ 0 then
      let dels :=
        match alookup s.worktrees commit with
        | some p => if (alookup s.disk p).isSome then [p] else []
        | none => []
      ({ worktrees := aerase s.worktrees commit,
         refCounts := aerase s.refCounts commit,
         disk := dels.foldl aerase s.disk },
       ⟨true, [], dels⟩)
    else
      ({ s with refCounts := aset s.refCounts commit r' }, ⟨true, [], []⟩)

/-! ## The synchronous `create` / `down` API (lines 182–244) -/

/-- `create`'s add step with its (differently worded) force fallback
(lines 217–225). -/
def create_add (disk : List (String × DirInfo)) (env : GitEnv)
    (path commit : String) (rmActs : List String) :
    Except WtError (List (String × DirInfo)) × StepInfo :=
  match env.addFirst with
  | AddRes.ok =>
      (Except.ok (aset disk path ⟨true, strLower commit⟩),
       ⟨false, [path], rmActs⟩)
  | AddRes.err m =>
      if createAddFallback m then
        match env.addForce with
        | AddRes.ok =>
            (Except.ok (aset disk path ⟨true, strLower commit⟩),
             ⟨false, [path], rmActs⟩)
        | AddRes.err m2 => (Except.error (WtError.gitError m2), ⟨false, [], rmActs⟩)
      else
        (Except.error (WtError.runtimeError ("Failed to create worktree for " ++ commit ++ ": " ++ m)),
         ⟨false, [], rmActs⟩)

/-- `create`'s validation of an existing directory plus its add step
(lines 199–227). -/
def create_checkout_tail (disk : List (String × DirInfo)) (env : GitEnv)
    (path commit : String) :
    Except WtError (String × List (String × DirInfo)) × StepInfo :=
  match alookup disk path with
  | some info =>
      if info.isRepo && (strLower info.head == strLower commit) then
        (Except.ok (path, disk), ⟨false, [], []⟩)
      else
        match create_add (aerase disk path) env path commit [path] with
        | (Except.ok disk', i) => (Except.ok (path, disk'), i)
        | (Except.error e, i) => (Except.error e, i)
  | none =>
      match create_add disk env path commit [] with
      | (Except.ok disk', i) => (Except.ok (path, disk'), i)
      | (Except.error e, i) => (Except.error e, i)

/-- `WorktreeManager.create` (lines 182–227): registers
`self.worktrees[commit] = path` up front — and touches `self.ref_counts`
nowhere — then prunes, fetches on demand, and runs the checkout tail. -/
def create_fn (s : MState) (env : GitEnv) (commit : String) :
    Except WtError (MState × String) × StepInfo :=
  let path := wtPath commit
  let s1 : MState := { s with worktrees := aset s.worktrees commit path }
  if env.commitLocal then
    match create_checkout_tail s1.disk env path commit with
    | (Except.ok (p, disk'), i) => (Except.ok ({ s1 with disk := disk' }, p), i)
    | (Except.error e, i) => (Except.error e, i)
  else
    match env.fetchRes with
    | AddRes.err m => (Except.error (WtError.gitError m), ⟨false, [], []⟩)
    | AddRes.ok =>
      match create_checkout_tail s1.disk env path commit with
      | (Except.ok (p, disk'), i) => (Except.ok ({ s1 with disk := disk' }, p), i)
      | (Except.error e, i) => (Except.error e, i)

/-- `WorktreeManager.down` (lines 241–244): `self.worktrees[worktree_id]`
raises `KeyError` when untracked, `shutil.rmtree` raises when the path is
gone; otherwise the directory is removed and the entry dropped — the
reference counts are neither consulted nor modified. -/
def down_fn (s : MState) (worktree_id : String) : Option MState :=
  match alookup s.worktrees worktree_id with
  | none => none
  | some p =>
    match alookup s.disk p with
    | none => none
    | some _ =>
        some { worktrees := aerase s.worktrees worktree_id,
               refCounts := s.refCounts,
               disk := aerase s.disk p }

/-- Registry well-formedness maintained by the async API: every tracked
reference count is at least 1 (entries are registered at 1 by `acquire` and
dropped by `release` before they could reach 0). -/
def wfM (s : MState) : Prop := ∀ kv ∈ s.refCounts, (1 : Int) ≤ kv.2

instance (s : MState) : Decidable (wfM s) :=
  inferInstanceAs (Decidable (∀ kv ∈ s.refCounts, (1 : Int) ≤ kv.2))

end SynthEvals.WorktreeManager

namespace SynthEvals.Pipeline

/-! ## Per-item pipeline coroutines

`run_question` (async_claude_pipeline.py lines 27–83) and `worker`
(async_dataset_pipeline.py lines 92–152), embedded as functions of an
outcome environment that records, for every fallible Python step, whether it
completed normally or raised.  Exception propagation follows the source's
try/except structure exactly; neither coroutine has a `finally` block. -/

/-- Outcome of one fallible Python step: normal completion with a value, or
a raised exception carrying its message. -/
inductive StepRes (α : Type) where
  | ok (a : α)
  | exn (msg : String)
  deriving DecidableEq, Repr

/-- The up-to-three `claude` subprocess attempts of `run_question`'s retry
loop (lines 36–63): each either raises while spawning/streaming the
subprocess or completes with the captured response text. -/
structure AgentAttempts where
  a0 : StepRes String
  a1 : StepRes String
  a2 : StepRes String
  deriving DecidableEq, Repr

/-- The retry loop (lines 36–63): run an attempt — an exception propagates
uncaught; a response other than `"(no content)"` breaks out of the loop;
after the third `"(no content)"` the response stays `"(no content)"`. -/
def claudeLoop (at3 : AgentAttempts) : StepRes String :=
  match at3.a0 with
  | StepRes.exn m => StepRes.exn m
  | StepRes.ok r0 =>
    if r0 ≠ "(no content)" then StepRes.ok r0 else
    match at3.a1 with
    | StepRes.exn m => StepRes.exn m
    | StepRes.ok r1 =>
      if r1 ≠ "(no content)" then StepRes.ok r1 else
      match at3.a2 with
      | StepRes.exn m => StepRes.exn m
      | StepRes.ok r2 =>
        if r2 ≠ "(no content)" then StepRes.ok r2 else StepRes.ok "(no content)"

/-- Environment of one `run_question` call: the worktree acquisition, the
agent attempts, the release call's own outcome, and the ledger append. -/
structure RQEnv where
  acquireRes : StepRes String
  attempts : AgentAttempts
  releaseRes : StepRes Unit
  writeRes : StepRes Unit
  deriving DecidableEq, Repr

/-- Observable result of `run_question`: the returned value (or the
exception that propagated out of the coroutine), the number of
`manager.release` invocations, and whether a ledger line was appended. -/
structure RQOut where
  outcome : StepRes (Option String)
  releaseCalls : Nat
  wrote : Bool
  deriving DecidableEq, Repr

/-- `run_question` (lines 27–83).  A failed acquisition is caught and the
coroutine returns `None` (lines 29–33).  An exception from the agent loop is
not caught anywhere, so it propagates and the release at step 4 is never
reached.  On the normal path release is invoked exactly once, its own
exception being caught (lines 66–69), and the result line is appended. -/
def run_question (env : RQEnv) : RQOut :=
  match env.acquireRes with
  | StepRes.exn _ => ⟨StepRes.ok none, 0, false⟩
  | StepRes.ok _ =>
    match claudeLoop env.attempts with
    | StepRes.exn m => ⟨StepRes.exn m, 0, false⟩
    | StepRes.ok resp =>
      match env.writeRes with
      | StepRes.exn m => ⟨StepRes.exn m, 1, false⟩
      | StepRes.ok _ => ⟨StepRes.ok (some resp), 1, true⟩

/-- Environment of one `worker` call (async_dataset_pipeline.py): the
acquisition, the `get_worktree_file_hierarchy` call and the tool factory
(both inside the same `try` as the acquisition), and the release outcome.
The generation stages are wrapped by the `@stage` decorator
(dataset_stages.py lines 12–24), which catches every exception, so they
cannot raise into `worker`. -/
structure WkEnv where
  acquireRes : StepRes String
  hierarchyRes : StepRes String
  toolsRes : StepRes Unit
  releaseRes : StepRes Unit
  deriving DecidableEq, Repr

/-- Observable result of `worker` (lines 92–152): how many times
`release` was invoked, and whether the failure-placeholder records were
appended by the setup `except` branch. -/
structure WkOut where
  releaseCalls : Nat
  failureRecordWritten : Bool
  deriving DecidableEq, Repr

/-- `worker`: if anything in the setup `try` raises — including the
hierarchy summarization or tool construction *after* a successful
acquisition — the `except` branch writes placeholder records and returns
without any release (lines 100–138); otherwise the stages run (exceptions
swallowed by `@stage`) and release is attempted exactly once with its own
exception caught (lines 143–150). -/
def worker (env : WkEnv) : WkOut :=
  match env.acquireRes with
  | StepRes.exn _ => ⟨0, true⟩
  | StepRes.ok _ =>
    match env.hierarchyRes with
    | StepRes.exn _ => ⟨0, true⟩
    | StepRes.ok _ =>
      match env.toolsRes with
      | StepRes.exn _ => ⟨0, true⟩
      | StepRes.ok _ => ⟨1, false⟩

end SynthEvals.Pipeline

namespace SynthEvals.FileTree

open SynthEvals

/-! ## File-hierarchy summarizer

`generate_file_tree` (codebase_utils.py lines 12–56).  A directory state is
an `FSEntry` tree whose children lists carry the order in which
`os.listdir` reports entries. -/

inductive FSEntry where
  | file (name : String)
  | dir (name : String) (children : List FSEntry)

def entryName : FSEntry → String
  | FSEntry.file n => n
  | FSEntry.dir n _ => n

/-- `os.path.isdir` on an entry. -/
def entryIsDir : FSEntry → Bool
  | FSEntry.file _ => false
  | FSEntry.dir _ _ => true

/-- Python `item.startswith('.')`. -/
def startsWithDot (s : String) : Bool :=
  match s.data with
  | [] => false
  | c :: _ => c = '.'

/-- The per-directory listing of lines 30–37: filter hidden and ignored
names, sort with the single boolean key `not os.path.isdir(...)` — Python's
sort is stable, so this is exactly the stable dirs-first partition of the
OS listing order — then truncate to `max_items`. -/
def orderedEntries (children : List FSEntry) (ignored : List String)
    (maxItems : Nat) : List FSEntry :=
  let surv := children.filter
    (fun e => !startsWithDot (entryName e) && !(ignored.contains (entryName e)))
  let parts := surv.partition entryIsDir
  (parts.1 ++ parts.2).take maxItems

/-- `"└── "` vs `"├── "` (line 43). -/
def connector (isLast : Bool) : String := if isLast then "└── " else "├── "

/-- `"    "` vs `"│   "` (line 49). -/
def extender (isLast : Bool) : String := if isLast then "    " else "│   "

/-- `_build_tree` (lines 24–52): stop when the depth budget is exhausted,
otherwise render each surviving entry with its connector (`is_last` is the
final index of the enumeration) and recurse into subdirectories with one
less level of budget. -/
def buildLevel (ignored : List String) (maxItems : Nat) :
    Nat → String → List FSEntry → List String
  | 0, _, _ => []
  | f + 1, pre, cs =>
    let items := orderedEntries cs ignored maxItems
    (items.enum.map (fun ie =>
      match ie.2 with
      | FSEntry.file n => [pre ++ connector (ie.1 == items.length - 1) ++ n]
      | FSEntry.dir n cs2 =>
          (pre ++ connector (ie.1 == items.length - 1) ++ n ++ "/")
            :: buildLevel ignored maxItems f
                 (pre ++ extender (ie.1 == items.length - 1)) cs2)).flatten

/-- `generate_file_tree` (lines 12–56): the root line followed by the
recursive rendering, joined with newlines. -/
def generate_file_tree (rootName : String) (children : List FSEntry)
    (ignored : List String) (maxDepth maxItems : Nat) : String :=
  String.intercalate "\n"
    ((rootName ++ "/") :: buildLevel ignored maxItems maxDepth "" children)

/-- Lexicographic order on character lists (for the spec-side sort). -/
def lexLe : List Char → List Char → Bool
  | [], _ => true
  | _ :: _, [] => false
  | a :: as, b :: bs => if a = b then lexLe as bs else decide (a < b)

/-- Name comparison for the spec-side sort. -/
def nameLe (a b : FSEntry) : Bool := lexLe (entryName a).data (entryName b).data

/-- Insertion into a name-sorted list. -/
def insertByName (e : FSEntry) : List FSEntry → List FSEntry
  | [] => [e]
  | x :: xs => if nameLe e x then e :: x :: xs else x :: insertByName e xs

/-- Insertion sort by name. -/
def sortByName : List FSEntry → List FSEntry
  | [] => []
  | x :: xs => insertByName x (sortByName xs)

/-- Modelled from the spec: "Directories are listed before files at each
level, entries are otherwise sorted for determinism" — the surviving
entries, directories first, each group in ascending name order, truncated
to the per-directory limit.  For comparison against `orderedEntries`. -/
def spec_orderedEntries (children : List FSEntry) (ignored : List String)
    (maxItems : Nat) : List FSEntry :=
  let surv := children.filter
    (fun e => !startsWithDot (entryName e) && !(ignored.contains (entryName e)))
  let parts := surv.partition entryIsDir
  (sortByName parts.1 ++ sortByName parts.2).take maxItems

/-- All directories of the listing come before all files. -/
def dirsBeforeFiles : List FSEntry → Bool
  | [] => true
  | e :: rest =>
    if entryIsDir e then dirsBeforeFiles rest
    else rest.all (fun x => !entryIsDir x)

end SynthEvals.FileTree

namespace SynthEvals.Pipeline

open SynthEvals

/-! ## Resumable output ledgers

The resume scan of `main_async` (async_claude_pipeline.py lines 97–126) and
the filter pass of `filter_and_clean_prs` (async_dataset_pipeline.py lines
19–89), plus the compaction file-operation traces of both
`filter_and_clean_prs` and `filter_and_clean_graded_rubrics`
(async_grader.py lines 100–143). -/

/-- One line of the Claude-answers ledger. -/
structure ClaudeRec where
  pr_number : Nat
  answer : String
  deriving DecidableEq, Repr

/-- Lines 101–105: collect the pr_numbers of records whose answer is not
the `"(no content)"` placeholder. -/
def pr_numbers_already_ran (recs : List ClaudeRec) : List Nat :=
  recs.foldl
    (fun acc d => if d.answer ≠ "(no content)" then acc ++ [d.pr_number] else acc) []

/-- One work item of the questions file. -/
structure QItem where
  pr_number : Nat
  question : String
  deriving DecidableEq, Repr

/-- Lines 120–125: keep the questions whose pr_number was not already
answered. -/
def questions_to_run (qs : List QItem) (already : List Nat) : List QItem :=
  qs.filter (fun q => !(already.contains q.pr_number))

/-- One line of the QnA ledger. -/
structure QnaRec where
  pr_number : Nat
  question : String
  answer : String
  deriving DecidableEq, Repr

/-- One line of the rubric ledger. -/
structure RubricRec where
  pr_number : Nat
  rubric : String
  deriving DecidableEq, Repr

/-- Failure classification of a QnA record (async_dataset_pipeline.py lines
32–42): substring tests against the lower-cased answer and question. -/
def qnaRecFailed (r : QnaRec) : Bool :=
  substrIn "failed to generate" (strLower r.answer) ||
  substrIn "worktree creation failed" (strLower r.answer) ||
  substrIn "failed to generate question" (strLower r.question)

/-- Failure classification of a rubric record (lines 49–55). -/
def rubricRecFailed (r : RubricRec) : Bool :=
  substrIn "failed to generate" (strLower r.rubric) ||
  substrIn "worktree creation failed" (strLower r.rubric)

/-- The `qna_seen` set (lines 28–43): pr_numbers of non-failed QnA records. -/
def qna_seen (qnaLines : List QnaRec) : List Nat :=
  qnaLines.foldl
    (fun acc r => if qnaRecFailed r then acc else acc ++ [r.pr_number]) []

/-- The `rubric_seen` set (lines 46–56). -/
def rubric_seen (rubricLines : List RubricRec) : List Nat :=
  rubricLines.foldl
    (fun acc r => if rubricRecFailed r then acc else acc ++ [r.pr_number]) []

/-- The `failed` set, accumulated across both ledger scans. -/
def failed_set (qnaLines : List QnaRec) (rubricLines : List RubricRec) : List Nat :=
  rubricLines.foldl
    (fun acc r => if rubricRecFailed r then acc ++ [r.pr_number] else acc)
    (qnaLines.foldl
      (fun acc r => if qnaRecFailed r then acc ++ [r.pr_number] else acc) [])

/-- Line 62–68: a merged PR is re-run unless it is seen in both ledgers and
marked failed in neither. -/
def prs_to_run (prs : List Nat) (qnaLines : List QnaRec)
    (rubricLines : List RubricRec) : List Nat :=
  prs.filter (fun n =>
    !((qna_seen qnaLines).contains n) ||
    !((rubric_seen rubricLines).contains n) ||
    (failed_set qnaLines rubricLines).contains n)

/-! ## Ledger compaction as file-operation traces -/

/-- File operations performed by the compaction passes. -/
inductive FOp where
  | openW (f : String)
  | writeL (f : String) (line : String)
  | mkTemp (f : String)
  | move (src dst : String)
  deriving DecidableEq, Repr

/-- The rewrite step of `filter_and_clean_prs` (async_dataset_pipeline.py
lines 70–81): open each ledger itself for writing — truncating it — and
write the surviving records (those not being re-run) straight back into it.
`encQ`/`encR` stand for `json.dumps`. -/
def filter_and_clean_prs_ops (qnaPath rubricPath : String)
    (qnaLines : List QnaRec) (rubricLines : List RubricRec)
    (remaining : List Nat) (encQ : QnaRec → String) (encR : RubricRec → String) :
    List FOp :=
  (FOp.openW qnaPath ::
    (qnaLines.filter (fun r => !(remaining.contains r.pr_number))).map
      (fun r => FOp.writeL qnaPath (encQ r))) ++
  (FOp.openW rubricPath ::
    (rubricLines.filter (fun r => !(remaining.contains r.pr_number))).map
      (fun r => FOp.writeL rubricPath (encR r)))

/-- The rewrite step of `filter_and_clean_graded_rubrics` (async_grader.py
lines 133–143): create a named temporary file next to the target, write the
surviving entries into it, then `shutil.move` it over the cleaned ledger. -/
def graded_rubrics_ops (tmp cleaned : String) (entries : List String) : List FOp :=
  FOp.mkTemp tmp :: FOp.openW tmp ::
    (entries.map (fun e => FOp.writeL tmp e)) ++ [FOp.move tmp cleaned]

/-- Effect of one file operation on the file system (path ↦ lines). -/
def applyFOp (fs : List (String × List String)) : FOp → List (String × List String)
  | FOp.openW f => aset fs f []
  | FOp.writeL f l => aset fs f (alookupD fs f [] ++ [l])
  | FOp.mkTemp f => aset fs f []
  | FOp.move src dst => aerase (aset fs dst (alookupD fs src [])) src

def runFOps (fs : List (String × List String)) (ops : List FOp) :
    List (String × List String) :=
  ops.foldl applyFOp fs

/-- The write-to-temp-then-rename discipline of the claim: the ledger is
never opened for writing or written directly; its content changes only by a
rename onto it. -/
def atomicCompaction (ops : List FOp) (ledger : String) : Bool :=
  ops.all (fun op =>
    match op with
    | FOp.openW f => f ≠ ledger
    | FOp.writeL f _ => f ≠ ledger
    | FOp.mkTemp f => f ≠ ledger
    | FOp.move _ _ => true)

/-- `op` does not affect the content stored at `f`. -/
def avoids (f : String) : FOp → Prop
  | FOp.openW g => g ≠ f
  | FOp.writeL g _ => g ≠ f
  | FOp.mkTemp g => g ≠ f
  | FOp.move s d => s ≠ f ∧ d ≠ f

end SynthEvals.Pipeline

namespace SynthEvals.Sem

/-! ## Semaphore-gated task runner

`main_async` (async_claude_pipeline.py lines 129–134) creates one
`asyncio.Semaphore(max_concurrency)` and immediately launches one task per
question; each task is `run_question`, whose whole body — worktree
acquisition, agent invocation, worktree release and the result append — runs
inside `async with sem` (lines 27–83).  A task is a program counter into
`run_question_steps`; the scheduler interleaves tasks one atomic step at a
time. -/

inductive QStep where
  | semWait
  | acquireWorktree
  | invokeAgent
  | releaseWorktree
  | writeResult
  | semSignal
  deriving DecidableEq, Repr

/-- The steps of one `run_question` task in program order. -/
def run_question_steps : List QStep :=
  [QStep.semWait, QStep.acquireWorktree, QStep.invokeAgent,
   QStep.releaseWorktree, QStep.writeResult, QStep.semSignal]

/-- Scheduler state: free permits of the semaphore, and one program counter
per task (number of steps completed). -/
structure SemState where
  avail : Nat
  tasks : List Nat
  deriving DecidableEq, Repr

/-- The driver's launch (lines 130–134): one task per work item, all created
up front before any is awaited, semaphore at the concurrency limit. -/
def initSem (numItems limit : Nat) : SemState :=
  ⟨limit, List.replicate numItems 0⟩

/-- A task holds a semaphore permit after completing `semWait` (step 0) and
before completing `semSignal` (step 5); the acquisition/agent/release steps
all lie inside this gated region. -/
def holdsSem (pc : Nat) : Bool := decide (1 ≤ pc) && decide (pc ≤ 5)

/-- Run one cooperative step of task `i`: `semWait` requires a free permit,
`semSignal` returns the permit, the interior steps simply advance. -/
def stepSem (s : SemState) (i : Nat) : Option SemState :=
  match s.tasks.get? i with
  | none => none
  | some pc =>
    if pc = 0 then
      if s.avail = 0 then none
      else some ⟨s.avail - 1, s.tasks.set i 1⟩
    else if pc < 5 then some ⟨s.avail, s.tasks.set i (pc + 1)⟩
    else if pc = 5 then some ⟨s.avail + 1, s.tasks.set i 6⟩
    else none

/-- Run a schedule (a list of task indices) from a state. -/
def runSem (s : SemState) : List Nat → Option SemState
  | [] => some s
  | i :: sched =>
    match stepSem s i with
    | none => none
    | some s' => runSem s' sched

/-- The permit-accounting invariant. -/
def semInv (limit : Nat) (s : SemState) : Prop :=
  s.avail + s.tasks.countP holdsSem = limit

end SynthEvals.Sem

namespace SynthEvals.WorktreeManager

open SynthEvals

/-! ## Interleaved executions of `acquire`/`release` coroutines

A scheduler over the two-phase `acquire` embedding: each acquire task
suspends between its locked bookkeeping and its checkout I/O (the lock
release in the source is the suspension point between lines 137 and 139);
a release task runs its whole locked body in one atomic step. -/

inductive TKind where
  | acq
  | rel
  deriving DecidableEq, Repr

/-- One coroutine: `pc = 0` — not yet run; `pc = 1` — bookkeeping done,
checkout pending (acquire only); `pc = 2` — completed; `pc = 3` — raised. -/
structure ATask where
  kind : TKind
  commit : String
  pc : Nat
  ret : Option String
  deriving DecidableEq, Repr

structure WState where
  mgr : MState
  createdPaths : List String
  tasks : List ATask
  deriving DecidableEq, Repr

def initAcqTasks (commits : List String) : List ATask :=
  commits.map (fun c => ⟨TKind.acq, c, 0, none⟩)

/-- Fresh manager (empty registry, empty worktree base directory) with one
pending `acquire` task per listed commit. -/
def initW (commits : List String) : WState :=
  ⟨⟨[], [], []⟩, [], initAcqTasks commits⟩

/-- Run one suspension-point-delimited step of task `i`. -/
def stepW (env : GitEnv) (w : WState) (i : Nat) : WState :=
  match w.tasks.get? i with
  | none => w
  | some t =>
    match t.kind with
    | TKind.rel =>
      if t.pc = 0 then
        let out := release_step w.mgr t.commit
        { w with mgr := out.1, tasks := w.tasks.set i { t with pc := 2 } }
      else w
    | TKind.acq =>
      if t.pc = 0 then
        match acquire_bookkeep w.mgr t.commit with
        | (m', some p, _) =>
            { w with
                mgr := m'
                tasks := w.tasks.set i { t with pc := 2, ret := some p } }
        | (m', none, _) =>
            { w with mgr := m', tasks := w.tasks.set i { t with pc := 1 } }
      else if t.pc = 1 then
        match acquire_checkout w.mgr env t.commit with
        | (Except.ok (m', p), info) =>
            { mgr := m', createdPaths := w.createdPaths ++ info.creates,
              tasks := w.tasks.set i { t with pc := 2, ret := some p } }
        | (Except.error _, info) =>
            { mgr := { w.mgr with disk := info.deletes.foldl aerase w.mgr.disk },
              createdPaths := w.createdPaths ++ info.creates,
              tasks := w.tasks.set i { t with pc := 3 } }
      else w

def runW (env : GitEnv) (w : WState) (sched : List Nat) : WState :=
  sched.foldl (stepW env) w

/-- Number of completed `acquire(c)` calls. -/
def completedAcq (w : WState) (c : String) : Nat :=
  w.tasks.countP (fun t => t.kind == TKind.acq && t.commit == c && t.pc == 2)

/-- Number of completed `release(c)` calls. -/
def completedRel (w : WState) (c : String) : Nat :=
  w.tasks.countP (fun t => t.kind == TKind.rel && t.commit == c && t.pc == 2)

/-- The manager's reference count for a commit (0 when untracked). -/
def refCountOf (s : MState) (c : String) : Int := alookupD s.refCounts c 0

/-- One complete, non-interleaved `acquire` call: the bookkeeping phase
immediately followed by its checkout phase.  Returns the result and the
list of directories created. -/
def acquireSeq (s : MState) (env : GitEnv) (c : String) :
    Except WtError (MState × String) × List String :=
  match acquire_bookkeep s c with
  | (s1, some p, _) => (Except.ok (s1, p), [])
  | (s1, none, _) =>
    match acquire_checkout s1 env c with
    | (Except.ok (s2, p), info) => (Except.ok (s2, p), info.creates)
    | (Except.error e, info) => (Except.error e, info.creates)

/-- `k` sequential complete `acquire(c)` calls from a fresh manager:
final state, accumulated created directories, returned paths in order. -/
def iterAcquire (env : GitEnv) (c : String) :
    Nat → MState × List String × List (Option String)
  | 0 => (⟨[], [], []⟩, [], [])
  | k + 1 =>
    let out := iterAcquire env c k
    match acquireSeq out.1 env c with
    | (Except.ok (s', p), cr) => (s', out.2.1 ++ cr, out.2.2 ++ [some p])
    | (Except.error _, cr) => (out.1, out.2.1 ++ cr, out.2.2 ++ [none])

/-- `j` sequential `release(c)` calls from a state. -/
def iterRelease (c : String) (s : MState) : Nat → MState
  | 0 => s
  | j + 1 => (release_step (iterRelease c s j) c).1

end SynthEvals.WorktreeManager

/-! # Theorems -/

namespace SynthEvals

@[simp] theorem alookup_nil {α : Type} (key : String) :
    alookup ([] : List (String × α)) key = none := rfl

@[simp] theorem alookup_cons {α : Type} (k : String) (v : α) (t : List (String × α))
    (key : String) :
    alookup ((k, v) :: t) key = if k = key then some v else alookup t key := rfl

theorem alookup_aset_self {α : Type} (l : List (String × α)) (key : String) (v : α) :
    alookup (aset l key v) key = some v := by
  induction l with
  | nil => simp [aset, alookup]
  | cons kv t ih =>
    obtain ⟨k, w⟩ := kv
    by_cases h : k = key <;> simp [aset, alookup, h, ih]

theorem alookup_aset_other {α : Type} (l : List (String × α)) (key key' : String) (v : α)
    (h : key ≠ key') :
    alookup (aset l key v) key' = alookup l key' := by
  induction l with
  | nil => simp [aset, alookup, h]
  | cons kv t ih =>
    obtain ⟨k, w⟩ := kv
    by_cases hk : k = key
    · subst hk; simp [aset, alookup, h]
    · simp only [aset, if_neg hk, alookup_cons]
      by_cases hk' : k = key' <;> simp [hk', ih]

theorem alookup_aerase_self {α : Type} (l : List (String × α)) (key : String) :
    alookup (aerase l key) key = none := by
  induction l with
  | nil => simp [aerase, alookup]
  | cons kv t ih =>
    obtain ⟨k, w⟩ := kv
    by_cases h : k = key
    · simpa [aerase, h] using ih
    · simpa [aerase, alookup, h] using ih

theorem alookup_aerase_other {α : Type} (l : List (String × α)) (key key' : String)
    (h : key ≠ key') :
    alookup (aerase l key) key' = alookup l key' := by
  induction l with
  | nil => simp [aerase, alookup]
  | cons kv t ih =>
    obtain ⟨k, w⟩ := kv
    by_cases hk : k = key
    · have hk2 : ¬ k = key' := by rw [hk]; exact h
      simp [aerase, alookup, hk, hk2, h, ih]
    · by_cases hk2 : k = key' <;>
        simp [aerase, alookup, hk, hk2, h, Ne.symm h, ih]

theorem mem_aerase {α : Type} (l : List (String × α)) (key : String)
    (kv : String × α) (h : kv ∈ aerase l key) : kv ∈ l := by
  induction l with
  | nil => simp [aerase] at h
  | cons kw t ih =>
    obtain ⟨k, w⟩ := kw
    by_cases hk : k = key
    · simp only [aerase, if_pos hk] at h
      exact List.mem_cons_of_mem _ (ih h)
    · simp only [aerase, if_neg hk, List.mem_cons] at h
      rcases h with h | h
      · exact h ▸ List.mem_cons_self _ _
      · exact List.mem_cons_of_mem _ (ih h)

theorem mem_aset {α : Type} (l : List (String × α)) (key : String) (v : α)
    (kv : String × α) (h : kv ∈ aset l key v) : kv = (key, v) ∨ kv ∈ l := by
  induction l with
  | nil => simpa [aset] using h
  | cons kw t ih =>
    obtain ⟨k, w⟩ := kw
    by_cases hk : k = key
    · simp only [aset, if_pos hk, List.mem_cons] at h
      rcases h with h | h
      · exact Or.inl h
      · exact Or.inr (List.mem_cons_of_mem _ h)
    · simp only [aset, if_neg hk, List.mem_cons] at h
      rcases h with h | h
      · exact Or.inr (h ▸ List.mem_cons_self _ _)
      · rcases ih h with h | h
        · exact Or.inl h
        · exact Or.inr (List.mem_cons_of_mem _ h)

end SynthEvals

namespace SynthEvals.WorktreeManager

open SynthEvals

/-- C3: `release(commit)` decrements the commit's reference count under the
registry lock; exactly when the count reaches zero it removes the checkout
directory from disk and drops both the path entry and the count entry; an
untracked commit is a warning-only no-op leaving state and disk unchanged;
tracked counts stay ≥ 1 (never negative) and a directory whose count is
still positive after the decrement is never deleted. -/
theorem release_semantics (s : MState) (c : String) (hwf : wfM s) :
    (release_step s c).2.lockHeld = true ∧
    (alookup s.refCounts c = none → release_step s c = (s, ⟨true, [], []⟩)) ∧
    (∀ r : Int, alookup s.refCounts c = some r →
      (r = 1 →
        alookup (release_step s c).1.refCounts c = none ∧
        alookup (release_step s c).1.worktrees c = none ∧
        ∀ p, alookup s.worktrees c = some p →
          alookup (release_step s c).1.disk p = none ∧
          ((alookup s.disk p).isSome → (release_step s c).2.deletes = [p])) ∧
      (2 ≤ r →
        alookup (release_step s c).1.refCounts c = some (r - 1) ∧
        (release_step s c).1.worktrees = s.worktrees ∧
        (release_step s c).1.disk = s.disk ∧
        (release_step s c).2.deletes = [])) ∧
    wfM (release_step s c).1 := by
  refine ⟨?_, ?_, ?_, ?_⟩
  · cases h : alookup s.refCounts c with
    | none => simp [release_step, h]
    | some r =>
      by_cases hr : r - 1 ≤ 0 <;> simp [release_step, h, hr]
  · intro h
    simp [release_step, h]
  · intro r h
    constructor
    · intro hr1
      subst hr1
      have hle : (1 : Int) - 1 ≤ 0 := by norm_num
      refine ⟨?_, ?_, ?_⟩
      · simp [release_step, h, hle, alookup_aerase_self]
      · simp [release_step, h, hle, alookup_aerase_self]
      · intro p hp
        constructor
        · cases hd : alookup s.disk p with
          | none =>
            simp [release_step, h, hle, hp, hd]
          | some d =>
            simp [release_step, h, hle, hp, hd, alookup_aerase_self]
        · intro hds
          rcases Option.isSome_iff_exists.mp hds with ⟨d, hd⟩
          simp [release_step, h, hle, hp, hd]
    · intro hr2
      have hgt : ¬ (r - 1 ≤ 0) := by omega
      refine ⟨?_, ?_, ?_, ?_⟩ <;>
        simp [release_step, h, hgt, alookup_aset_self]
  · cases h : alookup s.refCounts c with
    | none =>
      intro kv hkv
      simp only [release_step, h] at hkv
      exact hwf kv hkv
    | some r =>
      by_cases hr : r - 1 ≤ 0
      · intro kv hkv
        simp only [release_step, h, if_pos hr] at hkv
        exact hwf kv (mem_aerase _ _ _ hkv)
      · intro kv hkv
        simp only [release_step, h, if_neg hr] at hkv
        rcases mem_aset _ _ _ _ hkv with he | he
        · rw [he]; simpa using by omega
        · exact hwf kv he

/-- Witness for `release_semantics` at a state where commit `"c"` is held
twice: the release decrements the count to 1 and deletes nothing. -/
theorem release_semantics_witness :
    wfM (⟨[("c", "worktree_c")], [("c", 2)], [("worktree_c", ⟨true, "c"⟩)]⟩ : MState) ∧
    alookup (release_step ⟨[("c", "worktree_c")], [("c", 2)], [("worktree_c", ⟨true, "c"⟩)]⟩ "c").1.refCounts "c" = some 1 ∧
    (release_step (⟨[("c", "worktree_c")], [("c", 2)], [("worktree_c", ⟨true, "c"⟩)]⟩ : MState) "c").2.deletes = [] := by
  refine ⟨by decide, ?_, ?_⟩
  · have h := release_semantics ⟨[("c", "worktree_c")], [("c", 2)], [("worktree_c", ⟨true, "c"⟩)]⟩ "c" (by decide)
    have h2 := (h.2.2.1 2 (by decide)).2 (by decide)
    simpa using h2.1
  · have h := release_semantics ⟨[("c", "worktree_c")], [("c", 2)], [("worktree_c", ⟨true, "c"⟩)]⟩ "c" (by decide)
    exact ((h.2.2.1 2 (by decide)).2 (by decide)).2.2.2

/-- C10: the synchronous API does no reference counting. `down` removes the
tracked directory and drops the path entry no matter what the stored count
is (and leaves the counts untouched); `create` never writes a count; and
after two `create("abc")` calls handing the same path to two consumers, a
single `down("abc")` removes the checkout out from under the second. -/
theorem down_create_no_refcount (s : MState) (c p : String)
    (hp : alookup s.worktrees c = some p) (hd : (alookup s.disk p).isSome) :
    (∀ r : Int,
      down_fn { s with refCounts := aset s.refCounts c r } c =
        some { worktrees := aerase s.worktrees c,
               refCounts := aset s.refCounts c r,
               disk := aerase s.disk p }) ∧
    (∀ (st : MState) (env : GitEnv) (c' : String) (out : MState × String),
        (create_fn st env c').1 = Except.ok out → out.1.refCounts = st.refCounts) ∧
    ((create_fn ⟨[], [], []⟩ cleanEnv "abc").1 =
        Except.ok (⟨[("abc", "worktree_abc")], [], [("worktree_abc", ⟨true, "abc"⟩)]⟩,
          "worktree_abc")) ∧
    ((create_fn ⟨[("abc", "worktree_abc")], [], [("worktree_abc", ⟨true, "abc"⟩)]⟩ cleanEnv "abc").1 =
        Except.ok (⟨[("abc", "worktree_abc")], [], [("worktree_abc", ⟨true, "abc"⟩)]⟩,
          "worktree_abc")) ∧
    (down_fn ⟨[("abc", "worktree_abc")], [], [("worktree_abc", ⟨true, "abc"⟩)]⟩ "abc" =
        some ⟨[], [], []⟩) := by
  refine ⟨?_, ?_, by decide, by decide, by decide⟩
  · intro r
    rcases Option.isSome_iff_exists.mp hd with ⟨d, hdd⟩
    simp [down_fn, hp, hdd]
  · intro st env c' out h
    rcases htail : create_checkout_tail st.disk env (wtPath c') c' with ⟨res, i⟩
    by_cases hl : env.commitLocal
    · cases res with
      | ok pr =>
        simp only [create_fn, hl, if_true, htail] at h
        cases h
        rfl
      | error e =>
        simp only [create_fn, hl, if_true, htail] at h
        cases h
    · cases hf : env.fetchRes with
      | ok =>
        cases res with
        | ok pr =>
          simp only [create_fn, hl, if_false, hf, htail] at h
          cases h
          rfl
        | error e =>
          simp only [create_fn, hl, if_false, hf, htail] at h
          cases h
      | err m =>
        simp only [create_fn, hl, if_false, hf] at h
        cases h

theorem acquire_add_lockFree (disk : List (String × DirInfo)) (env : GitEnv)
    (path c : String) (rmActs : List String) :
    (acquire_add disk env path c rmActs).2.lockHeld = false ∧
    (acquire_add disk env path c rmActs).2.deletes = rmActs := by
  cases h : env.addFirst with
  | ok => simp [acquire_add, h]
  | err m =>
    by_cases hf : acquireAddFallback m
    · cases h2 : env.addForce with
      | ok => simp [acquire_add, h, hf, h2]
      | err m2 => simp [acquire_add, h, hf, h2]
    · simp [acquire_add, h, hf]

theorem create_add_lockFree (disk : List (String × DirInfo)) (env : GitEnv)
    (path c : String) (rmActs : List String) :
    (create_add disk env path c rmActs).2.lockHeld = false ∧
    (create_add disk env path c rmActs).2.deletes = rmActs := by
  cases h : env.addFirst with
  | ok => simp [create_add, h]
  | err m =>
    by_cases hf : createAddFallback m
    · cases h2 : env.addForce with
      | ok => simp [create_add, h, hf, h2]
      | err m2 => simp [create_add, h, hf, h2]
    · simp [create_add, h, hf]

theorem acquire_checkout_tail_lockFree (disk : List (String × DirInfo))
    (env : GitEnv) (path c : String) :
    (acquire_checkout_tail disk env path c).2.lockHeld = false := by
  unfold acquire_checkout_tail
  cases hmem : alookup disk path with
  | some info =>
    by_cases hv : (info.isRepo && (strLower info.head == strLower c)) = true
    · simp [hv]
    · rcases hadd : acquire_add (aerase disk path) env path c [path] with ⟨res, i⟩
      have hl := (acquire_add_lockFree (aerase disk path) env path c [path]).1
      rw [hadd] at hl
      cases res <;> simp [hv, hadd] <;> exact hl
  | none =>
    rcases hadd : acquire_add disk env path c [] with ⟨res, i⟩
    have hl := (acquire_add_lockFree disk env path c []).1
    rw [hadd] at hl
    cases res <;> simp [hadd] <;> exact hl

theorem acquire_checkout_lockFree (s : MState) (env : GitEnv) (c : String) :
    (acquire_checkout s env c).2.lockHeld = false := by
  unfold acquire_checkout
  have hl := acquire_checkout_tail_lockFree s.disk env (wtPath c) c
  rcases htail : acquire_checkout_tail s.disk env (wtPath c) c with ⟨res, i⟩
  rw [htail] at hl
  by_cases hloc : env.commitLocal
  · cases res <;> simp [hloc, htail] <;> exact hl
  · cases hf : env.fetchRes with
    | ok => cases res <;> simp [hloc, hf, htail] <;> exact hl
    | err m => simp [hloc, hf]

/-- C2 counterexample: at a state tracking commit `"c"` with reference count
1 and a live directory, `release` removes the directory while the registry
lock is held — the deletion is performed inside the locked region, contrary
to the claim that the lock is never held during disk deletion. -/
theorem release_deletes_under_lock_cex :
    (release_step ⟨[("c", "worktree_c")], [("c", 1)], [("worktree_c", ⟨true, "c"⟩)]⟩ "c").2.lockHeld = true ∧
    (release_step ⟨[("c", "worktree_c")], [("c", 1)], [("worktree_c", ⟨true, "c"⟩)]⟩ "c").2.deletes = ["worktree_c"] := by
  decide

/-- C2 amended: in `acquire` the lock discipline is as the spec describes —
the bookkeeping step holds the lock but neither creates nor deletes any
directory, and the checkout phase that does the disk I/O runs with the lock
released; `release`, however, performs its whole body, including the
directory deletion, while holding the lock. -/
theorem lock_discipline (s : MState) (c : String) (env : GitEnv) :
    (acquire_bookkeep s c).2.2.lockHeld = true ∧
    (acquire_bookkeep s c).2.2.creates = [] ∧
    (acquire_bookkeep s c).2.2.deletes = [] ∧
    (acquire_checkout s env c).2.lockHeld = false ∧
    (release_step s c).2.lockHeld = true := by
  refine ⟨?_, ?_, ?_, acquire_checkout_lockFree s env c, ?_⟩
  · unfold acquire_bookkeep
    cases h : alookup s.worktrees c with
    | some p => by_cases hd : (alookup s.disk p).isSome <;> simp [h, hd]
    | none => simp [h]
  · unfold acquire_bookkeep
    cases h : alookup s.worktrees c with
    | some p => by_cases hd : (alookup s.disk p).isSome <;> simp [h, hd]
    | none => simp [h]
  · unfold acquire_bookkeep
    cases h : alookup s.worktrees c with
    | some p => by_cases hd : (alookup s.disk p).isSome <;> simp [h, hd]
    | none => simp [h]
  · unfold release_step
    cases h : alookup s.refCounts c with
    | none => simp [h]
    | some r => by_cases hr : r - 1 ≤ 0 <;> simp [h, hr]

/-- C4: when a directory already exists at the target path of an
`acquire`/`create` checkout: if it validates as a repository whose checked
out HEAD matches the requested commit (hex SHAs compared case-insensitively,
as git reports them lower-case), the path is returned as-is with nothing
deleted or created; if the HEAD differs or the directory cannot be validated
as a checkout, the directory is deleted and the checkout re-created by the
add step; an add failure reporting an already-registered/exists condition is
retried with force; and any other add failure surfaces as the
distinguishable `RuntimeError`.  All clauses are proved for both `acquire`'s
checkout phase and for `create` (each with its own fallback-message test,
`acquireAddFallback` resp. `createAddFallback`, as in the source). -/
theorem existing_dir_validation (disk : List (String × DirInfo)) (env : GitEnv)
    (path c : String) (info : DirInfo) (hmem : alookup disk path = some info) :
    (info.isRepo = true → strLower info.head = strLower c →
       acquire_checkout_tail disk env path c = (Except.ok (path, disk), ⟨false, [], []⟩) ∧
       create_checkout_tail disk env path c = (Except.ok (path, disk), ⟨false, [], []⟩)) ∧
    (info.isRepo = false ∨ strLower info.head ≠ strLower c →
       (acquire_checkout_tail disk env path c).2.deletes = [path] ∧
       (create_checkout_tail disk env path c).2.deletes = [path] ∧
       (env.addFirst = AddRes.ok →
          (acquire_checkout_tail disk env path c).1 =
            Except.ok (path, aset (aerase disk path) path ⟨true, strLower c⟩) ∧
          (acquire_checkout_tail disk env path c).2.creates = [path] ∧
          (create_checkout_tail disk env path c).1 =
            Except.ok (path, aset (aerase disk path) path ⟨true, strLower c⟩)) ∧
       (∀ m, env.addFirst = AddRes.err m → acquireAddFallback m = true →
          env.addForce = AddRes.ok →
          (acquire_checkout_tail disk env path c).1 =
            Except.ok (path, aset (aerase disk path) path ⟨true, strLower c⟩) ∧
          (acquire_checkout_tail disk env path c).2.creates = [path]) ∧
       (∀ m, env.addFirst = AddRes.err m → acquireAddFallback m = false →
          (acquire_checkout_tail disk env path c).1 =
            Except.error (WtError.runtimeError
              ("Failed to create worktree for " ++ c ++ ": " ++ m))) ∧
       (∀ m, env.addFirst = AddRes.err m → createAddFallback m = true →
          env.addForce = AddRes.ok →
          (create_checkout_tail disk env path c).1 =
            Except.ok (path, aset (aerase disk path) path ⟨true, strLower c⟩) ∧
          (create_checkout_tail disk env path c).2.creates = [path]) ∧
       (∀ m, env.addFirst = AddRes.err m → createAddFallback m = false →
          (create_checkout_tail disk env path c).1 =
            Except.error (WtError.runtimeError
              ("Failed to create worktree for " ++ c ++ ": " ++ m)))) := by
  constructor
  · intro hrepo hhead
    have hv : (info.isRepo && (strLower info.head == strLower c)) = true := by
      simp [hrepo, hhead]
    constructor
    · unfold acquire_checkout_tail
      simp [hmem, hv]
    · unfold create_checkout_tail
      simp [hmem, hv]
  · intro hbad
    have hv : (info.isRepo && (strLower info.head == strLower c)) = false := by
      rcases hbad with h | h
      · simp [h]
      · simp [beq_eq_false_iff_ne.mpr h]
    refine ⟨?_, ?_, ?_, ?_, ?_, ?_, ?_⟩
    · unfold acquire_checkout_tail
      have hd := (acquire_add_lockFree (aerase disk path) env path c [path]).2
      rcases hadd : acquire_add (aerase disk path) env path c [path] with ⟨res, i⟩
      rw [hadd] at hd
      cases res <;> simp [hmem, hv, hadd] <;> exact hd
    · unfold create_checkout_tail
      have hd := (create_add_lockFree (aerase disk path) env path c [path]).2
      rcases hadd : create_add (aerase disk path) env path c [path] with ⟨res, i⟩
      rw [hadd] at hd
      cases res <;> simp [hmem, hv, hadd] <;> exact hd
    · intro hok
      refine ⟨?_, ?_, ?_⟩
      · unfold acquire_checkout_tail
        simp [hmem, hv, acquire_add, hok]
      · unfold acquire_checkout_tail
        simp [hmem, hv, acquire_add, hok]
      · unfold create_checkout_tail
        simp [hmem, hv, create_add, hok]
    · intro m hm hfb hforce
      constructor
      · unfold acquire_checkout_tail
        simp [hmem, hv, acquire_add, hm, hfb, hforce]
      · unfold acquire_checkout_tail
        simp [hmem, hv, acquire_add, hm, hfb, hforce]
    · intro m hm hfb
      unfold acquire_checkout_tail
      simp [hmem, hv, acquire_add, hm, hfb]
    · intro m hm hfb hforce
      constructor
      · unfold create_checkout_tail
        simp [hmem, hv, create_add, hm, hfb, hforce]
      · unfold create_checkout_tail
        simp [hmem, hv, create_add, hm, hfb, hforce]
    · intro m hm hfb
      unfold create_checkout_tail
      simp [hmem, hv, create_add, hm, hfb]

/-- Witness for `existing_dir_validation`: a directory checked out at HEAD
`"def"` when commit `"abc"` is requested is deleted and re-created, while a
matching directory is returned untouched. -/
theorem existing_dir_validation_witness :
    alookup [("worktree_abc", (⟨true, "def"⟩ : DirInfo))] "worktree_abc" = some ⟨true, "def"⟩ ∧
    ((⟨true, "def"⟩ : DirInfo).isRepo = false ∨ strLower (DirInfo.head ⟨true, "def"⟩) ≠ strLower "abc") ∧
    (acquire_checkout_tail [("worktree_abc", ⟨true, "def"⟩)] cleanEnv "worktree_abc" "abc").2.deletes = ["worktree_abc"] ∧
    (acquire_checkout_tail [("worktree_abc", ⟨true, "def"⟩)] cleanEnv "worktree_abc" "abc").1 =
      Except.ok ("worktree_abc",
        aset (aerase [("worktree_abc", ⟨true, "def"⟩)] "worktree_abc") "worktree_abc" ⟨true, strLower "abc"⟩) := by
  refine ⟨by decide, Or.inr (by decide), ?_, ?_⟩
  · exact ((existing_dir_validation [("worktree_abc", ⟨true, "def"⟩)] cleanEnv
      "worktree_abc" "abc" ⟨true, "def"⟩ (by decide)).2 (Or.inr (by decide))).1
  · exact (((existing_dir_validation [("worktree_abc", ⟨true, "def"⟩)] cleanEnv
      "worktree_abc" "abc" ⟨true, "def"⟩ (by decide)).2 (Or.inr (by decide))).2.2.1 rfl).1

/-- Witness for `down_create_no_refcount`: with a stored count of 5 for
`"c"`, `down` still deletes the directory and drops the entry. -/
theorem down_create_no_refcount_witness :
    alookup (⟨[("c", "worktree_c")], [("c", 1)], [("worktree_c", ⟨true, "c"⟩)]⟩ : MState).worktrees "c" = some "worktree_c" ∧
    (alookup (⟨[("c", "worktree_c")], [("c", 1)], [("worktree_c", ⟨true, "c"⟩)]⟩ : MState).disk "worktree_c").isSome ∧
    down_fn { (⟨[("c", "worktree_c")], [("c", 1)], [("worktree_c", ⟨true, "c"⟩)]⟩ : MState) with
                refCounts := aset [("c", 1)] "c" 5 } "c" =
      some { worktrees := aerase [("c", "worktree_c")] "c",
             refCounts := aset [("c", 1)] "c" 5,
             disk := aerase [("worktree_c", ⟨true, "c"⟩)] "worktree_c" } := by
  refine ⟨by decide, by decide, ?_⟩
  exact (down_create_no_refcount ⟨[("c", "worktree_c")], [("c", 1)], [("worktree_c", ⟨true, "c"⟩)]⟩
    "c" "worktree_c" (by decide) (by decide)).1 5

end SynthEvals.WorktreeManager

namespace SynthEvals.Pipeline

/-- C5 counterexample: the worktree acquisition succeeds, then the agent
work raises (`claude` subprocess spawn fails on the first attempt in
`run_question`; hierarchy summarization fails in `worker`): the exception
propagates out of the coroutine and `release` is invoked zero times, not
exactly once — the cleanup is not in a finally-equivalent position. -/
theorem release_skipped_on_exception_cex :
    (run_question ⟨StepRes.ok "worktree_abc",
        ⟨StepRes.exn "FileNotFoundError: claude", StepRes.ok "x", StepRes.ok "x"⟩,
        StepRes.ok (), StepRes.ok ()⟩).releaseCalls = 0 ∧
    (run_question ⟨StepRes.ok "worktree_abc",
        ⟨StepRes.exn "FileNotFoundError: claude", StepRes.ok "x", StepRes.ok "x"⟩,
        StepRes.ok (), StepRes.ok ()⟩).outcome = StepRes.exn "FileNotFoundError: claude" ∧
    (worker ⟨StepRes.ok "worktree_abc", StepRes.exn "FileNotFoundError",
        StepRes.ok (), StepRes.ok ()⟩).releaseCalls = 0 := by
  decide

/-- C5 amended: `release` is invoked exactly once only on the path where the
intervening work completes without raising (release's own failure and the
ledger append do not change this); if the work raises after a successful
acquisition, the exception propagates out of the coroutine and `release` is
skipped (there is no `finally`); a failed acquisition is caught and performs
no release. -/
theorem release_once_on_normal_path (env : RQEnv) (wenv : WkEnv) :
    (∀ p, env.acquireRes = StepRes.ok p →
       (∀ r, claudeLoop env.attempts = StepRes.ok r →
          (run_question env).releaseCalls = 1) ∧
       (∀ m, claudeLoop env.attempts = StepRes.exn m →
          (run_question env).releaseCalls = 0 ∧
          (run_question env).outcome = StepRes.exn m)) ∧
    (∀ m, env.acquireRes = StepRes.exn m →
       (run_question env).releaseCalls = 0 ∧
       (run_question env).outcome = StepRes.ok none) ∧
    (∀ p, wenv.acquireRes = StepRes.ok p →
       (wenv.hierarchyRes = StepRes.exn "" ∨ True →
          (∀ h t, wenv.hierarchyRes = StepRes.ok h → wenv.toolsRes = StepRes.ok t →
             (worker wenv).releaseCalls = 1 ∧
             (worker wenv).failureRecordWritten = false)) ∧
       (∀ m, wenv.hierarchyRes = StepRes.exn m →
          (worker wenv).releaseCalls = 0 ∧
          (worker wenv).failureRecordWritten = true)) := by
  refine ⟨?_, ?_, ?_⟩
  · intro p hp
    constructor
    · intro r hr
      cases hw : env.writeRes <;> simp [run_question, hp, hr, hw]
    · intro m hm
      simp [run_question, hp, hm]
  · intro m hm
    simp [run_question, hm]
  · intro p hp
    constructor
    · intro _ h t hh ht
      simp [worker, hp, hh, ht]
    · intro m hm
      simp [worker, hp, hm]

/-- Witness for `release_once_on_normal_path`: on a fully successful run
both coroutines release exactly once. -/
theorem release_once_on_normal_path_witness :
    (⟨StepRes.ok "wt", ⟨StepRes.ok "answer", StepRes.ok "x", StepRes.ok "x"⟩,
        StepRes.ok (), StepRes.ok ()⟩ : RQEnv).acquireRes = StepRes.ok "wt" ∧
    claudeLoop ⟨StepRes.ok "answer", StepRes.ok "x", StepRes.ok "x"⟩ = StepRes.ok "answer" ∧
    (run_question ⟨StepRes.ok "wt", ⟨StepRes.ok "answer", StepRes.ok "x", StepRes.ok "x"⟩,
        StepRes.ok (), StepRes.ok ()⟩).releaseCalls = 1 := by
  refine ⟨by decide, by decide, ?_⟩
  exact ((release_once_on_normal_path
      ⟨StepRes.ok "wt", ⟨StepRes.ok "answer", StepRes.ok "x", StepRes.ok "x"⟩,
        StepRes.ok (), StepRes.ok ()⟩
      ⟨StepRes.ok "wt", StepRes.ok "h", StepRes.ok (), StepRes.ok ()⟩).1
      "wt" rfl).1 "answer" (by decide)

end SynthEvals.Pipeline

namespace SynthEvals.FileTree

theorem allFiles_dirsBeforeFiles (l : List FSEntry)
    (h : ∀ e ∈ l, entryIsDir e = false) : dirsBeforeFiles l = true := by
  cases l with
  | nil => rfl
  | cons e rest =>
    have he := h e (List.mem_cons_self _ _)
    simp only [dirsBeforeFiles, he, if_neg]
    simp only [Bool.false_eq_true, if_false, List.all_eq_true]
    intro x hx
    simp [h x (List.mem_cons_of_mem _ hx)]

theorem dirsBeforeFiles_append_take (l1 l2 : List FSEntry)
    (h1 : ∀ e ∈ l1, entryIsDir e = true)
    (h2 : ∀ e ∈ l2, entryIsDir e = false) (k : Nat) :
    dirsBeforeFiles ((l1 ++ l2).take k) = true := by
  induction l1 generalizing k with
  | nil =>
    simp only [List.nil_append]
    exact allFiles_dirsBeforeFiles _ (fun e he => h2 e (List.take_subset _ _ he))
  | cons d l1' ih =>
    cases k with
    | zero => rfl
    | succ k' =>
      have hd := h1 d (List.mem_cons_self _ _)
      simp only [List.cons_append, List.take_succ_cons, dirsBeforeFiles, hd, if_pos]
      exact ih (fun e he => h1 e (List.mem_cons_of_mem _ he)) k'

/-- C9 counterexample: with the OS reporting two files in the order `b`,
`a`, the summarizer keeps them in exactly that order — the surviving
entries are *not* otherwise sorted (the spec-side listing is `a`, `b`) —
and the rendered output lists `b` before `a`. -/
theorem file_tree_not_sorted_cex :
    (orderedEntries [FSEntry.file "b", FSEntry.file "a"] [] 15).map entryName = ["b", "a"] ∧
    (spec_orderedEntries [FSEntry.file "b", FSEntry.file "a"] [] 15).map entryName = ["a", "b"] ∧
    (["b", "a"] : List String) ≠ ["a", "b"] ∧
    generate_file_tree "root" [FSEntry.file "b", FSEntry.file "a"] [] 3 15 =
      "root/\n├── b\n└── a" := by
  decide

/-- C9 amended: the summarizer is deterministic — it is a pure function of
the directory state including the OS listing order, so two runs over the
same state render the same string — and at every level the surviving
entries (non-hidden, not ignored, truncated to the per-directory limit)
list all directories before all files; within each group they keep the OS
listing order (a stable partition), not sorted order. -/
theorem file_tree_dirs_first_deterministic (rootName : String)
    (children : List FSEntry) (ig : List String) (maxDepth maxItems : Nat) :
    generate_file_tree rootName children ig maxDepth maxItems =
      generate_file_tree rootName children ig maxDepth maxItems ∧
    (∀ cs : List FSEntry, dirsBeforeFiles (orderedEntries cs ig maxItems) = true) ∧
    (∀ cs : List FSEntry,
       orderedEntries cs ig maxItems =
         (let surv := cs.filter
            (fun e => !startsWithDot (entryName e) && !(ig.contains (entryName e)))
          (surv.filter entryIsDir ++ surv.filter (fun e => !entryIsDir e)).take maxItems)) := by
  refine ⟨rfl, ?_, ?_⟩
  · intro cs
    simp only [orderedEntries, List.partition_eq_filter_filter]
    apply dirsBeforeFiles_append_take
    · intro e he
      exact (List.mem_filter.mp he).2
    · intro e he
      simpa using (List.mem_filter.mp he).2
  · intro cs
    simp only [orderedEntries, List.partition_eq_filter_filter]
    rfl

end SynthEvals.FileTree

namespace SynthEvals.Pipeline

theorem mem_foldl_collect {α : Type} (p : α → Prop) [DecidablePred p]
    (key : α → Nat) (l : List α) (acc : List Nat) (n : Nat) :
    (n ∈ l.foldl (fun a r => if p r then a ++ [key r] else a) acc) ↔
      n ∈ acc ∨ ∃ r ∈ l, p r ∧ key r = n := by
  induction l generalizing acc with
  | nil => simp
  | cons x xs ih =>
    simp only [List.foldl_cons]
    by_cases hx : p x
    · rw [if_pos hx, ih]
      simp only [List.mem_append, List.mem_singleton, List.exists_mem_cons_iff]
      constructor
      · rintro ((h | h) | h)
        · exact Or.inl h
        · exact Or.inr (Or.inl ⟨hx, h.symm⟩)
        · exact Or.inr (Or.inr h)
      · rintro (h | (⟨_, hk⟩ | h))
        · exact Or.inl (Or.inl h)
        · exact Or.inl (Or.inr hk.symm)
        · exact Or.inr h
    · rw [if_neg hx, ih]
      simp only [List.exists_mem_cons_iff]
      constructor
      · rintro (h | h)
        · exact Or.inl h
        · exact Or.inr (Or.inr h)
      · rintro (h | (⟨hp, _⟩ | h))
        · exact Or.inl h
        · exact absurd hp hx
        · exact Or.inr h

theorem mem_foldl_collectNeg {α : Type} (p : α → Prop) [DecidablePred p]
    (key : α → Nat) (l : List α) (acc : List Nat) (n : Nat) :
    (n ∈ l.foldl (fun a r => if p r then a else a ++ [key r]) acc) ↔
      n ∈ acc ∨ ∃ r ∈ l, ¬ p r ∧ key r = n := by
  induction l generalizing acc with
  | nil => simp
  | cons x xs ih =>
    simp only [List.foldl_cons]
    by_cases hx : p x
    · rw [if_pos hx, ih]
      simp only [List.exists_mem_cons_iff]
      constructor
      · rintro (h | h)
        · exact Or.inl h
        · exact Or.inr (Or.inr h)
      · rintro (h | (⟨hnp, _⟩ | h))
        · exact Or.inl h
        · exact absurd hx hnp
        · exact Or.inr h
    · rw [if_neg hx, ih]
      simp only [List.mem_append, List.mem_singleton, List.exists_mem_cons_iff]
      constructor
      · rintro ((h | h) | h)
        · exact Or.inl h
        · exact Or.inr (Or.inl ⟨hx, h.symm⟩)
        · exact Or.inr (Or.inr h)
      · rintro (h | (⟨_, hk⟩ | h))
        · exact Or.inl (Or.inl h)
        · exact Or.inl (Or.inr hk.symm)
        · exact Or.inr h

theorem contains_iff_mem_nat (l : List Nat) (n : Nat) :
    l.contains n = true ↔ n ∈ l := List.elem_iff

theorem bnot_contains_iff (l : List Nat) (n : Nat) :
    (!(l.contains n)) = true ↔ n ∉ l := by
  constructor
  · intro h hmem
    have h2 : l.contains n = true := (contains_iff_mem_nat l n).mpr hmem
    rw [h2] at h
    cases h
  · intro h
    cases hc : l.contains n with
    | false => rfl
    | true => exact absurd ((contains_iff_mem_nat l n).mp hc) h

theorem mem_pr_numbers_already_ran (recs : List ClaudeRec) (n : Nat) :
    n ∈ pr_numbers_already_ran recs ↔
      ∃ r ∈ recs, r.answer ≠ "(no content)" ∧ r.pr_number = n := by
  unfold pr_numbers_already_ran
  rw [mem_foldl_collect (fun d : ClaudeRec => d.answer ≠ "(no content)")]
  simp

theorem mem_qna_seen (qnaLines : List QnaRec) (n : Nat) :
    n ∈ qna_seen qnaLines ↔
      ∃ r ∈ qnaLines, qnaRecFailed r = false ∧ r.pr_number = n := by
  unfold qna_seen
  rw [mem_foldl_collectNeg (fun r : QnaRec => qnaRecFailed r = true)]
  simp

theorem mem_rubric_seen (rubricLines : List RubricRec) (n : Nat) :
    n ∈ rubric_seen rubricLines ↔
      ∃ r ∈ rubricLines, rubricRecFailed r = false ∧ r.pr_number = n := by
  unfold rubric_seen
  rw [mem_foldl_collectNeg (fun r : RubricRec => rubricRecFailed r = true)]
  simp

theorem mem_failed_set (qnaLines : List QnaRec) (rubricLines : List RubricRec)
    (n : Nat) :
    n ∈ failed_set qnaLines rubricLines ↔
      (∃ r ∈ qnaLines, qnaRecFailed r = true ∧ r.pr_number = n) ∨
      (∃ r ∈ rubricLines, rubricRecFailed r = true ∧ r.pr_number = n) := by
  unfold failed_set
  rw [mem_foldl_collect (fun r : RubricRec => rubricRecFailed r = true)]
  rw [mem_foldl_collect (fun r : QnaRec => qnaRecFailed r = true)]
  simp [or_comm]

theorem mem_questions_to_run (qs : List QItem) (already : List Nat) (q : QItem) :
    q ∈ questions_to_run qs already ↔ q ∈ qs ∧ q.pr_number ∉ already := by
  unfold questions_to_run
  rw [List.mem_filter, bnot_contains_iff]

theorem mem_prs_to_run (prs : List Nat) (qnaLines : List QnaRec)
    (rubricLines : List RubricRec) (n : Nat) :
    n ∈ prs_to_run prs qnaLines rubricLines ↔
      n ∈ prs ∧ (n ∉ qna_seen qnaLines ∨ n ∉ rubric_seen rubricLines ∨
                 n ∈ failed_set qnaLines rubricLines) := by
  unfold prs_to_run
  rw [List.mem_filter]
  apply and_congr_right
  intro _
  rw [Bool.or_eq_true, Bool.or_eq_true, bnot_contains_iff, bnot_contains_iff]
  rw [contains_iff_mem_nat]
  rw [or_assoc]

/-- C7: the resume computations return exactly the keys that have a
successful (non-placeholder-failure) record, and the drivers exclude
exactly those keys from the next run's work-item list.  `main_async` keeps
precisely the questions whose pr_number has no answer record other than
`"(no content)"`; the dataset pipeline re-runs a merged PR exactly unless
it has a successful QnA record, a successful rubric record, and no
failure-classified record in either ledger — failed items are re-attempted,
successful ones are not redone. -/
theorem resume_excludes_exactly_successful (recs : List ClaudeRec)
    (qs : List QItem) (qnaLines : List QnaRec) (rubricLines : List RubricRec)
    (prs : List Nat) :
    (∀ n : Nat, n ∈ pr_numbers_already_ran recs ↔
       ∃ r ∈ recs, r.answer ≠ "(no content)" ∧ r.pr_number = n) ∧
    (∀ q : QItem, q ∈ questions_to_run qs (pr_numbers_already_ran recs) ↔
       q ∈ qs ∧
         ¬ ∃ r ∈ recs, r.answer ≠ "(no content)" ∧ r.pr_number = q.pr_number) ∧
    (∀ n : Nat, n ∈ prs_to_run prs qnaLines rubricLines ↔
       n ∈ prs ∧
         ¬ ((∃ r ∈ qnaLines, qnaRecFailed r = false ∧ r.pr_number = n) ∧
            (∃ r ∈ rubricLines, rubricRecFailed r = false ∧ r.pr_number = n) ∧
            ¬ ((∃ r ∈ qnaLines, qnaRecFailed r = true ∧ r.pr_number = n) ∨
               (∃ r ∈ rubricLines, rubricRecFailed r = true ∧ r.pr_number = n)))) := by
  refine ⟨mem_pr_numbers_already_ran recs, ?_, ?_⟩
  · intro q
    rw [mem_questions_to_run, mem_pr_numbers_already_ran]
  · intro n
    rw [mem_prs_to_run, mem_qna_seen, mem_rubric_seen, mem_failed_set]
    apply and_congr_right
    intro _
    constructor
    · rintro (h | h | h) <;> rintro ⟨ha, hb, hc⟩
      · exact h ha
      · exact h hb
      · exact hc h
    · intro h
      by_cases ha : ∃ r ∈ qnaLines, qnaRecFailed r = false ∧ r.pr_number = n
      · by_cases hb : ∃ r ∈ rubricLines, rubricRecFailed r = false ∧ r.pr_number = n
        · right; right
          by_contra hc
          exact h ⟨ha, hb, hc⟩
        · right; left; exact hb
      · left; exact ha

end SynthEvals.Pipeline


namespace SynthEvals.Pipeline

theorem applyFOp_avoid (f : String) (fs : List (String × List String))
    (op : FOp) (h : avoids f op) :
    alookup (applyFOp fs op) f = alookup fs f := by
  cases op with
  | openW g => exact alookup_aset_other fs g f [] h
  | writeL g s => exact alookup_aset_other fs g f _ h
  | mkTemp g => exact alookup_aset_other fs g f [] h
  | move src dst =>
    obtain ⟨hs, hd⟩ := h
    simp only [applyFOp]
    rw [alookup_aerase_other _ src f hs, alookup_aset_other fs dst f _ hd]

theorem runFOps_cons (fs : List (String × List String)) (op : FOp)
    (rest : List FOp) :
    runFOps fs (op :: rest) = runFOps (applyFOp fs op) rest := rfl

theorem runFOps_append (fs : List (String × List String)) (l1 l2 : List FOp) :
    runFOps fs (l1 ++ l2) = runFOps (runFOps fs l1) l2 := by
  unfold runFOps
  rw [List.foldl_append]

theorem runFOps_avoid (f : String) (ops : List FOp)
    (h : ∀ op ∈ ops, avoids f op) (fs : List (String × List String)) :
    alookup (runFOps fs ops) f = alookup fs f := by
  induction ops generalizing fs with
  | nil => rfl
  | cons op rest ih =>
    rw [runFOps_cons, ih (fun o ho => h o (List.mem_cons_of_mem _ ho)),
      applyFOp_avoid f fs op (h op (List.mem_cons_self _ _))]

theorem runFOps_writes (g : String) (es : List String)
    (fs : List (String × List String)) (cur : List String)
    (h : alookup fs g = some cur) :
    alookup (runFOps fs (es.map (fun e => FOp.writeL g e))) g = some (cur ++ es) := by
  induction es generalizing fs cur with
  | nil => simpa using h
  | cons e rest ih =>
    rw [List.map_cons, runFOps_cons]
    have hstep : applyFOp fs (FOp.writeL g e) = aset fs g (cur ++ [e]) := by
      simp only [applyFOp, alookupD, h]
      rfl
    rw [hstep, ih (aset fs g (cur ++ [e])) (cur ++ [e]) (alookup_aset_self _ _ _)]
    simp

/-- C6 counterexample: `filter_and_clean_prs` rewrites the QnA ledger by
opening the ledger file itself for writing — not a temporary file — so the
pass is not temp-file-then-rename, and replaying only its first operation
(a crash right after the truncating open) leaves the ledger empty, losing
the previously stored records. -/
theorem compaction_truncates_cex :
    atomicCompaction (filter_and_clean_prs_ops "qna.jsonl" "rubrics.jsonl"
        [⟨1, "q1", "a1"⟩, ⟨2, "q2", "a2"⟩] [] [2]
        (fun r => r.answer) (fun r => r.rubric)) "qna.jsonl" = false ∧
    alookup (runFOps [("qna.jsonl", ["rec1", "rec2"])]
        ((filter_and_clean_prs_ops "qna.jsonl" "rubrics.jsonl"
            [⟨1, "q1", "a1"⟩, ⟨2, "q2", "a2"⟩] [] [2]
            (fun r => r.answer) (fun r => r.rubric)).take 1)) "qna.jsonl" = some [] := by
  decide

/-- C6 amended: only the graded-rubrics compaction pass follows the
write-to-temp-then-rename discipline — every crash prefix of its operation
trace leaves the cleaned ledger either untouched or holding exactly the
survivors, and the full trace installs the survivors — while the dataset
pipeline's QnA/rubric filter pass opens the ledgers themselves for writing
(an in-place truncate-then-rewrite). -/
theorem graded_rubrics_atomic (tmp cleaned : String) (entries : List String)
    (hne : tmp ≠ cleaned) :
    atomicCompaction (graded_rubrics_ops tmp cleaned entries) cleaned = true ∧
    (∀ (fs0 : List (String × List String)) (k : Nat),
       alookup (runFOps fs0 ((graded_rubrics_ops tmp cleaned entries).take k)) cleaned =
           alookup fs0 cleaned ∨
       alookup (runFOps fs0 ((graded_rubrics_ops tmp cleaned entries).take k)) cleaned =
           some entries) ∧
    (∀ fs0 : List (String × List String),
       alookup (runFOps fs0 (graded_rubrics_ops tmp cleaned entries)) cleaned =
         some entries) ∧
    (∀ (qnaPath rubricPath : String) (qnaLines : List QnaRec)
        (rubricLines : List RubricRec) (remaining : List Nat)
        (encQ : QnaRec → String) (encR : RubricRec → String),
       atomicCompaction (filter_and_clean_prs_ops qnaPath rubricPath qnaLines
         rubricLines remaining encQ encR) qnaPath = false) := by
  have hsplit : graded_rubrics_ops tmp cleaned entries =
      (FOp.mkTemp tmp :: FOp.openW tmp :: entries.map (fun e => FOp.writeL tmp e)) ++
        [FOp.move tmp cleaned] := by
    simp [graded_rubrics_ops]
  have hfront : ∀ op ∈ FOp.mkTemp tmp :: FOp.openW tmp ::
      entries.map (fun e => FOp.writeL tmp e), avoids cleaned op := by
    intro op hop
    rcases hop with _ | ⟨_, hop⟩
    · exact fun hh => hne hh
    · rcases hop with _ | ⟨_, hop⟩
      · exact fun hh => hne hh
      · rcases List.mem_map.mp hop with ⟨e, _, rfl⟩
        exact fun hh => hne hh
  have hfs2 : ∀ fs0 : List (String × List String),
      alookup (applyFOp (applyFOp fs0 (FOp.mkTemp tmp)) (FOp.openW tmp)) tmp =
        some [] := by
    intro fs0
    simp only [applyFOp]
    exact alookup_aset_self _ _ _
  have hfull : ∀ fs0 : List (String × List String),
      alookup (runFOps fs0 (graded_rubrics_ops tmp cleaned entries)) cleaned =
        some entries := by
    intro fs0
    rw [hsplit, runFOps_append, runFOps_cons, runFOps_cons]
    have htmp := runFOps_writes tmp entries
      (applyFOp (applyFOp fs0 (FOp.mkTemp tmp)) (FOp.openW tmp)) [] (hfs2 fs0)
    rw [runFOps_cons]
    show alookup (applyFOp _ (FOp.move tmp cleaned)) cleaned = some entries
    simp only [applyFOp, alookupD] at htmp ⊢
    rw [alookup_aerase_other _ tmp cleaned hne, alookup_aset_self, htmp]
    simp
  refine ⟨?_, ?_, hfull, ?_⟩
  · apply List.all_eq_true.mpr
    intro op hop
    rw [hsplit] at hop
    rcases List.mem_append.mp hop with hop | hop
    · rcases hop with _ | ⟨_, hop⟩
      · simpa using hne
      · rcases hop with _ | ⟨_, hop⟩
        · simpa using hne
        · rcases List.mem_map.mp hop with ⟨e, _, rfl⟩
          simpa using hne
    · rcases hop with _ | ⟨_, hop⟩
      · simp
      · cases hop
  · intro fs0 k
    by_cases hk : k ≤ (FOp.mkTemp tmp :: FOp.openW tmp ::
        entries.map (fun e => FOp.writeL tmp e)).length
    · left
      rw [hsplit, List.take_append_of_le_length hk]
      exact runFOps_avoid cleaned _
        (fun op hop => hfront op (List.take_subset _ _ hop)) fs0
    · right
      have hlen : (graded_rubrics_ops tmp cleaned entries).length ≤ k := by
        rw [hsplit]
        simp only [List.length_append, List.length_cons, List.length_map,
          List.length_nil] at hk ⊢
        omega
      rw [List.take_of_length_le hlen]
      exact hfull fs0
  · intro qnaPath rubricPath qnaLines rubricLines remaining encQ encR
    unfold filter_and_clean_prs_ops atomicCompaction
    simp

/-- Witness for `graded_rubrics_atomic` at concrete paths and one survivor
entry. -/
theorem graded_rubrics_atomic_witness :
    ("tmp.jsonl" : String) ≠ "cleaned.jsonl" ∧
    atomicCompaction (graded_rubrics_ops "tmp.jsonl" "cleaned.jsonl" ["e1"])
      "cleaned.jsonl" = true ∧
    alookup (runFOps [("cleaned.jsonl", ["old"])]
      (graded_rubrics_ops "tmp.jsonl" "cleaned.jsonl" ["e1"])) "cleaned.jsonl" =
      some ["e1"] := by
  refine ⟨by decide, ?_, ?_⟩
  · exact (graded_rubrics_atomic "tmp.jsonl" "cleaned.jsonl" ["e1"] (by decide)).1
  · exact (graded_rubrics_atomic "tmp.jsonl" "cleaned.jsonl" ["e1"]
      (by decide)).2.2.1 [("cleaned.jsonl", ["old"])]

end SynthEvals.Pipeline

namespace SynthEvals.Sem

theorem countP_set_eq (p : Nat → Bool) (l : List Nat) (i : Nat) (a b : Nat)
    (h : l.get? i = some a) :
    (l.set i b).countP p + (if p a then 1 else 0) =
      l.countP p + (if p b then 1 else 0) := by
  induction l generalizing i with
  | nil => cases h
  | cons x xs ih =>
    cases i with
    | zero =>
      injection h with hxa
      subst hxa
      by_cases hpb : p b <;> by_cases hpx : p x <;>
        simp +arith [List.set, List.countP_cons, hpb, hpx]
    | succ j =>
      have hj : xs.get? j = some a := h
      have := ih j hj
      by_cases hpx : p x <;>
        simp only [List.set, List.countP_cons, hpx, if_true, if_false] <;>
        omega

theorem holdsSem_iff (pc : Nat) : holdsSem pc = true ↔ 1 ≤ pc ∧ pc ≤ 5 := by
  unfold holdsSem
  rw [Bool.and_eq_true, decide_eq_true_iff, decide_eq_true_iff]

theorem stepSem_inv (limit : Nat) (s s' : SemState) (i : Nat)
    (hs : stepSem s i = some s') (hinv : semInv limit s) : semInv limit s' := by
  cases hget : s.tasks.get? i with
  | none =>
    simp only [stepSem, hget] at hs
    cases hs
  | some pc =>
    simp only [stepSem, hget] at hs
    unfold semInv at hinv ⊢
    by_cases h0 : pc = 0
    · subst h0
      rw [if_pos rfl] at hs
      by_cases havail : s.avail = 0
      · rw [if_pos havail] at hs
        cases hs
      · rw [if_neg havail] at hs
        injection hs with hs'
        subst hs'
        have hc := countP_set_eq holdsSem s.tasks i 0 1 hget
        have h0f : holdsSem 0 = false := by decide
        have h1t : holdsSem 1 = true := by decide
        simp [h0f, h1t] at hc
        show s.avail - 1 + List.countP holdsSem (s.tasks.set i 1) = limit
        omega
    · rw [if_neg h0] at hs
      by_cases h5 : pc < 5
      · rw [if_pos h5] at hs
        injection hs with hs'
        subst hs'
        have hc := countP_set_eq holdsSem s.tasks i pc (pc + 1) hget
        have hpct : holdsSem pc = true := (holdsSem_iff pc).mpr (by omega)
        have hpc1 : holdsSem (pc + 1) = true := (holdsSem_iff _).mpr (by omega)
        simp [hpct, hpc1] at hc
        show s.avail + List.countP holdsSem (s.tasks.set i (pc + 1)) = limit
        omega
      · rw [if_neg h5] at hs
        by_cases h5' : pc = 5
        · rw [if_pos h5'] at hs
          injection hs with hs'
          subst hs'
          subst h5'
          have hc := countP_set_eq holdsSem s.tasks i 5 6 hget
          have h5t : holdsSem 5 = true := by decide
          have h6f : holdsSem 6 = false := by decide
          simp [h5t, h6f] at hc
          show s.avail + 1 + List.countP holdsSem (s.tasks.set i 6) = limit
          omega
        · rw [if_neg h5'] at hs
          cases hs

theorem runSem_inv (limit : Nat) (sched : List Nat) :
    ∀ s s' : SemState, runSem s sched = some s' →
      semInv limit s → semInv limit s' := by
  induction sched with
  | nil =>
    intro s s' h hinv
    injection h with h'
    subst h'
    exact hinv
  | cons i rest ih =>
    intro s s' h hinv
    unfold runSem at h
    cases hstep : stepSem s i with
    | none => rw [hstep] at h; cases h
    | some s1 =>
      rw [hstep] at h
      exact ih s1 s' h (stepSem_inv limit s s1 i hstep hinv)

theorem countP_replicate_zero (m : Nat) :
    (List.replicate m 0).countP holdsSem = 0 := by
  induction m with
  | zero => rfl
  | succ k ih =>
    rw [List.replicate_succ, List.countP_cons]
    have : holdsSem 0 = false := by decide
    simp [this, ih]

/-- C8: the driver launches one task per work item immediately (the initial
state carries one program counter per item, all unstarted, created before
any step runs), the worktree acquisition, agent invocation and worktree
release steps of `run_question` all lie inside the semaphore-gated region,
and in every state reachable under any schedule at most `limit` tasks are
inside that region simultaneously. -/
theorem semaphore_bounds_active (numItems limit : Nat) (sched : List Nat)
    (s : SemState) (hrun : runSem (initSem numItems limit) sched = some s) :
    s.tasks.countP holdsSem ≤ limit ∧
    (initSem numItems limit).tasks = List.replicate numItems 0 ∧
    (initSem numItems limit).tasks.length = numItems ∧
    (∀ j : Nat, (run_question_steps.get? j = some QStep.acquireWorktree ∨
                 run_question_steps.get? j = some QStep.invokeAgent ∨
                 run_question_steps.get? j = some QStep.releaseWorktree) →
       holdsSem j = true) := by
  refine ⟨?_, rfl, by simp [initSem], ?_⟩
  · have hinv0 : semInv limit (initSem numItems limit) := by
      unfold semInv initSem
      simp [countP_replicate_zero]
    have hinv := runSem_inv limit sched _ s hrun hinv0
    unfold semInv at hinv
    omega
  · intro j hj
    rcases j with _ | _ | _ | _ | _ | _ | j
    · simp [run_question_steps] at hj
    · decide
    · decide
    · decide
    · simp [run_question_steps] at hj
    · simp [run_question_steps] at hj
    · simp [run_question_steps, List.get?] at hj

/-- Witness for `semaphore_bounds_active`: five items, limit 2, a schedule
where two tasks enter the gated region. -/
theorem semaphore_bounds_active_witness :
    runSem (initSem 5 2) [0, 1, 0, 1] = some ⟨0, [2, 2, 0, 0, 0]⟩ ∧
    (⟨0, [2, 2, 0, 0, 0]⟩ : SemState).tasks.countP holdsSem ≤ 2 := by
  refine ⟨by decide, ?_⟩
  exact (semaphore_bounds_active 5 2 [0, 1, 0, 1] ⟨0, [2, 2, 0, 0, 0]⟩ (by decide)).1

end SynthEvals.Sem

namespace SynthEvals.WorktreeManager

theorem acquireSeq_first (c : String) :
    acquireSeq ⟨[], [], []⟩ cleanEnv c =
      (Except.ok (⟨[(c, wtPath c)], [(c, 1)], [(wtPath c, ⟨true, strLower c⟩)]⟩,
        wtPath c), [wtPath c]) := by
  simp [acquireSeq, acquire_bookkeep, acquire_checkout, acquire_checkout_tail,
    acquire_add, cleanEnv, aset]

theorem acquireSeq_hit (c p : String) (r : Int) (dsk : List (String × DirInfo))
    (d : DirInfo) (hd : alookup dsk p = some d) :
    acquireSeq ⟨[(c, p)], [(c, r)], dsk⟩ cleanEnv c =
      (Except.ok (⟨[(c, p)], [(c, r + 1)], dsk⟩, p), []) := by
  simp [acquireSeq, acquire_bookkeep, alookup, alookupD, aset, hd]

theorem iterAcquire_state (c : String) (k : Nat) (hk : 1 ≤ k) :
    iterAcquire cleanEnv c k =
      (⟨[(c, wtPath c)], [(c, (k : Int))], [(wtPath c, ⟨true, strLower c⟩)]⟩,
       [wtPath c], List.replicate k (some (wtPath c))) := by
  induction k with
  | zero => exact absurd hk (by omega)
  | succ k ih =>
    by_cases hk0 : k = 0
    · subst hk0
      simp [iterAcquire, acquireSeq_first c]
    · have hk1 : 1 ≤ k := by omega
      have hd : alookup [(wtPath c, (⟨true, strLower c⟩ : DirInfo))] (wtPath c) =
          some ⟨true, strLower c⟩ := by simp [alookup]
      have hstep := acquireSeq_hit c (wtPath c) (k : Int)
        [(wtPath c, (⟨true, strLower c⟩ : DirInfo))] ⟨true, strLower c⟩ hd
      have hcast : ((k : Int) + 1) = ((k + 1 : Nat) : Int) := by push_cast; ring
      simp only [iterAcquire, ih hk1, hstep, hcast, List.replicate_succ',
        List.append_nil]

theorem releaseStep_mid (c p : String) (dsk : List (String × DirInfo)) (r : Int)
    (hr : 2 ≤ r) :
    release_step ⟨[(c, p)], [(c, r)], dsk⟩ c =
      (⟨[(c, p)], [(c, r - 1)], dsk⟩, ⟨true, [], []⟩) := by
  have hgt : ¬ (r - 1 ≤ 0) := by omega
  simp [release_step, alookup, aset, hgt]

theorem releaseStep_last (c p : String) (d : DirInfo) :
    release_step ⟨[(c, p)], [(c, 1)], [(p, d)]⟩ c =
      (⟨[], [], []⟩, ⟨true, [], [p]⟩) := by
  simp [release_step, alookup, aerase, aset]

theorem iterRelease_mid (c : String) (k : Nat) (_hk : 1 ≤ k) :
    ∀ j, j < k →
      iterRelease c
        ⟨[(c, wtPath c)], [(c, (k : Int))], [(wtPath c, ⟨true, strLower c⟩)]⟩ j =
      ⟨[(c, wtPath c)], [(c, (k : Int) - (j : Int))],
        [(wtPath c, ⟨true, strLower c⟩)]⟩ := by
  intro j
  induction j with
  | zero =>
    intro _
    simp [iterRelease]
  | succ j ih =>
    intro hjk
    have hj : j < k := by omega
    show (release_step (iterRelease c _ j) c).1 = _
    rw [ih hj]
    have hr : (2 : Int) ≤ (k : Int) - (j : Int) := by
      have : j + 2 ≤ k := by omega
      omega
    rw [releaseStep_mid c (wtPath c) _ ((k : Int) - (j : Int)) hr]
    have : (k : Int) - (j : Int) - 1 = (k : Int) - ((j + 1 : Nat) : Int) := by
      push_cast
      ring
    rw [this]

theorem iterRelease_last (c : String) (k : Nat) (hk : 1 ≤ k) :
    iterRelease c
      ⟨[(c, wtPath c)], [(c, (k : Int))], [(wtPath c, ⟨true, strLower c⟩)]⟩ k =
      ⟨[], [], []⟩ := by
  cases k with
  | zero => exact absurd hk (by omega)
  | succ k' =>
    show (release_step (iterRelease c _ k') c).1 = _
    rw [iterRelease_mid c (k' + 1) hk k' (by omega)]
    have : ((k' + 1 : Nat) : Int) - (k' : Int) = 1 := by push_cast; ring
    rw [this, releaseStep_last]

/-- C1 counterexample: two concurrent `acquire("abc")` calls interleaved at
the manager's suspension point between registration and checkout.  Both
calls complete, both receive the same live path, and exactly one directory
is created — but the final reference count is 1, not
2 = completed acquires − completed releases: the second call's bookkeeping
found the commit registered with its directory not yet on disk and reset
the count to 1. -/
theorem acquire_refcount_race_cex :
    completedAcq (runW cleanEnv (initW ["abc", "abc"]) [0, 1, 0, 1]) "abc" = 2 ∧
    completedRel (runW cleanEnv (initW ["abc", "abc"]) [0, 1, 0, 1]) "abc" = 0 ∧
    (runW cleanEnv (initW ["abc", "abc"]) [0, 1, 0, 1]).tasks.map (fun t => t.ret) =
      [some "worktree_abc", some "worktree_abc"] ∧
    (runW cleanEnv (initW ["abc", "abc"]) [0, 1, 0, 1]).createdPaths =
      ["worktree_abc"] ∧
    refCountOf (runW cleanEnv (initW ["abc", "abc"]) [0, 1, 0, 1]).mgr "abc" = 1 ∧
    ((1 : Int) ≠ (2 : Int) - (0 : Int)) := by
  decide

/-- C1 amended: for sequences of `acquire(C)` calls in which each call's
checkout completes before the next call begins (no interleaving inside
`acquire`), followed by any number of `release(C)` calls up to the number
of acquires: exactly one checkout directory is created, every caller
receives the same live path, and the reference count equals the number of
completed acquires minus completed releases (with the directory still on
disk while that count is positive).  Under interleaving, a second
`acquire(C)` that runs its bookkeeping before the first call's checkout
finishes resets the count to 1 (see the counterexample), so the claim's
count equation fails for truly concurrent acquires. -/
theorem acquire_release_sequential (c : String) (k j : Nat)
    (hk : 1 ≤ k) (hj : j ≤ k) :
    (iterAcquire cleanEnv c k).2.1 = [wtPath c] ∧
    (iterAcquire cleanEnv c k).2.2 = List.replicate k (some (wtPath c)) ∧
    refCountOf (iterRelease c (iterAcquire cleanEnv c k).1 j) c =
      (k : Int) - (j : Int) ∧
    (j < k →
      alookup (iterRelease c (iterAcquire cleanEnv c k).1 j).disk (wtPath c) =
        some ⟨true, strLower c⟩) := by
  have hstate := iterAcquire_state c k hk
  rw [hstate]
  refine ⟨rfl, rfl, ?_, ?_⟩
  · rcases Nat.lt_or_ge j k with hlt | hge
    · rw [iterRelease_mid c k hk j hlt]
      simp [refCountOf, alookupD, alookup]
    · have hjk : j = k := by omega
      subst hjk
      rw [iterRelease_last c j hk]
      simp [refCountOf, alookupD, alookup]
  · intro hlt
    rw [iterRelease_mid c k hk j hlt]
    simp [alookup]

/-- Witness for `acquire_release_sequential`: two sequential acquires of
`"abc"` and one release leave the count at 1 with one directory created. -/
theorem acquire_release_sequential_witness :
    (1 ≤ 2 ∧ 1 ≤ 2) ∧
    (iterAcquire cleanEnv "abc" 2).2.1 = [wtPath "abc"] ∧
    refCountOf (iterRelease "abc" (iterAcquire cleanEnv "abc" 2).1 1) "abc" =
      (2 : Int) - (1 : Int) := by
  refine ⟨⟨by decide, by decide⟩, ?_, ?_⟩
  · exact (acquire_release_sequential "abc" 2 1 (by decide) (by decide)).1
  · have h := (acquire_release_sequential "abc" 2 1 (by decide) (by decide)).2.2.1
    simpa using h

end SynthEvals.WorktreeManager
